import Mathlib

/-!
Verification of the `loess` function of `pyloess` (src/pyloess/loess.py)
against its natural-language specification.

The embedding works over exact rationals extended with a NaN element
(`FV`), mirroring the only IEEE-754 special behaviour this pipeline can
actually produce with finite inputs: the row-normalisation `dists / max`
divides `0 / 0` when a row's maximum selected distance is zero, yielding
NaN, which then propagates through the tricubic kernel, the batched
normal-equations solve and the final dot product.  (No other division
occurs, every other operation maps finite values to finite values, and
the gathered distances are bounded by the row maximum, so `0/0` is the
only zero-denominator case reachable.)

Matrix inversion is modelled after `np.linalg.inv`: it fails on an
(exactly) singular all-finite matrix and silently returns NaN entries
when the input matrix contains NaN (LAPACK's zero-pivot test does not
fire on NaN).  The final `.squeeze()` of the numpy code removes *all*
axes of extent 1; together with broadcasting this makes the prediction
formula depend on the shape `(m, degree+1, 1)` of the stacked betas,
which the embedding reproduces by the explicit case split in `yhat`.
-/

set_option maxRecDepth 1000000

namespace Pyloess

/-- A finite rational value or NaN. -/
inductive FV where
  | num (q : ℚ)
  | nan
deriving DecidableEq, Repr

namespace FV

/-- Addition; NaN propagates. -/
def add : FV → FV → FV
  | num a, num b => num (a + b)
  | _, _ => nan

/-- Multiplication of a finite value by NaN is NaN (IEEE, incl. `0 * NaN`). -/
def mul : FV → FV → FV
  | num a, num b => num (a * b)
  | _, _ => nan

/-- Subtraction; NaN propagates. -/
def sub : FV → FV → FV
  | num a, num b => num (a - b)
  | _, _ => nan

/-- Division.  In this pipeline the denominator is the row-maximum
distance and the numerator is bounded by it, so a zero denominator only
occurs as `0 / 0`, which is NaN. -/
def div : FV → FV → FV
  | num a, num b => if b = 0 then nan else num (a / b)
  | _, _ => nan

/-- Natural-number power, `x ** n` elementwise; `NaN ** 0 = 1` as in IEEE pow. -/
def powN : FV → ℕ → FV
  | _, 0 => num 1
  | num a, n + 1 => num (a ^ (n + 1))
  | nan, _ + 1 => nan

/-- `np.clip (. , 0, 1)`; clip keeps NaN. -/
def clip01 : FV → FV
  | num a => num (max 0 (min 1 a))
  | nan => nan

instance : Zero FV := ⟨num 0⟩

instance : Add FV := ⟨add⟩

instance : Mul FV := ⟨mul⟩

theorem num_add (a b : ℚ) : (num a) + (num b) = num (a + b) := rfl

theorem num_mul (a b : ℚ) : (num a) * (num b) = num (a * b) := rfl

theorem nan_add (x : FV) : nan + x = nan := by cases x <;> rfl

theorem add_nan (x : FV) : x + nan = nan := by cases x <;> rfl

theorem nan_mul (x : FV) : nan * x = nan := by cases x <;> rfl

theorem mul_nan (x : FV) : x * nan = nan := by cases x <;> rfl

theorem zero_def : (0 : FV) = num 0 := rfl

instance : AddCommMonoid FV where
  add_assoc a b c := by
    cases a <;> cases b <;> cases c <;>
      simp only [num_add, nan_add, add_nan] <;>
      first
      | rfl
      | exact congrArg FV.num (by ring)
  zero_add a := by
    cases a <;> simp only [zero_def, num_add, nan_add, add_nan] <;>
      first
      | rfl
      | exact congrArg FV.num (by ring)
  add_zero a := by
    cases a <;> simp only [zero_def, num_add, nan_add, add_nan] <;>
      first
      | rfl
      | exact congrArg FV.num (by ring)
  add_comm a b := by
    cases a <;> cases b <;> simp only [num_add, nan_add, add_nan] <;>
      first
      | rfl
      | exact congrArg FV.num (by ring)
  nsmul := nsmulRec

/-- `num` as an additive monoid homomorphism. -/
def numHom : ℚ →+ FV where
  toFun := num
  map_zero' := rfl
  map_add' := fun _ _ => rfl

theorem sum_num {ι : Type*} (s : Finset ι) (f : ι → ℚ) :
    (∑ i ∈ s, num (f i)) = num (∑ i ∈ s, f i) :=
  (map_sum numHom f s).symm

theorem sum_eq_nan {ι : Type*} [DecidableEq ι] {s : Finset ι} {f : ι → FV}
    (i : ι) (hi : i ∈ s) (h : f i = nan) : (∑ j ∈ s, f j) = nan := by
  rw [← Finset.add_sum_erase s f hi, h, nan_add]

end FV

/-- The arguments of one `loess` call. -/
structure Input where
  xs : List ℚ
  ys : List ℚ
  evalx : Option (List ℚ)
  degree : ℕ
  span : ℚ

/-- Errors the numpy code can raise, in pipeline order: the zero-size
reduction `ValueError` from `np.max` on an empty neighbourhood, the
`LinAlgError` from `np.linalg.inv` on an exactly singular finite matrix,
and the `IndexError` from `eval_x[:, 1]` when the evaluation design
matrix has a single column. -/
inductive LoessErr where
  | emptyReduction
  | singularMatrix
  | indexError
deriving DecidableEq, Repr

/-- The two return formats of `loess`. -/
inductive LoessOut where
  | pairs (l : List (FV × FV))
  | values (l : List FV)
deriving DecidableEq, Repr

namespace Input

/-- `order = np.argsort(x); x = x[order]; y = y[order]`: the joint reorder
of the observations by ascending x, modelled as a sort of the zipped pairs
by first component. -/
def sortedPts (P : Input) : List (ℚ × ℚ) :=
  List.insertionSort (fun p q : ℚ × ℚ => p.1 ≤ q.1) (P.xs.zip P.ys)

/-- Number of (paired) observations after the zip. -/
def nObs (P : Input) : ℕ := P.sortedPts.length

/-- Sorted x values. -/
def sx (P : Input) (i : Fin P.nObs) : ℚ := (P.sortedPts.get i).1

/-- y values carried along with the sort. -/
def sy (P : Input) (i : Fin P.nObs) : ℚ := (P.sortedPts.get i).2

/-- `eval_x = x if eval_x is None else eval_x`. -/
def evalList (P : Input) : List ℚ :=
  match P.evalx with
  | none => P.sortedPts.map Prod.fst
  | some es => es

/-- `num_eval = len(eval_x)`. -/
def numEval (P : Input) : ℕ := P.evalList.length

/-- The j-th evaluation point. -/
def evalPt (P : Input) (j : Fin P.numEval) : ℚ := P.evalList.get j

/-- `dists = np.abs(eval_x[:, None] - x)`. -/
def dist (P : Input) (j : Fin P.numEval) (i : Fin P.nObs) : ℚ :=
  |P.evalPt j - P.sx i|

/-- `int(np.ceil(span * len(x)))`. -/
def kZ (P : Input) : ℤ := ⌈P.span * (P.nObs : ℚ)⌉

/-- The number of columns kept by the slice `[:, :kZ]`: a non-negative
stop clamps to the width, a negative stop counts from the end. -/
def kEff (P : Input) : ℕ :=
  if 0 ≤ P.kZ then min P.kZ.toNat P.nObs else P.nObs - (-P.kZ).toNat

theorem kEff_le_nObs (P : Input) : P.kEff ≤ P.nObs := by
  unfold kEff
  split
  · exact min_le_right _ _
  · exact Nat.sub_le _ _

/-- `np.argsort(dists, axis=1)` for row j: the observation indices in
ascending order of distance. -/
def rowOrder (P : Input) (j : Fin P.numEval) : List (Fin P.nObs) :=
  List.insertionSort (fun a b => P.dist j a ≤ P.dist j b) (List.finRange P.nObs)

theorem length_rowOrder (P : Input) (j : Fin P.numEval) :
    (P.rowOrder j).length = P.nObs := by
  rw [rowOrder, List.length_insertionSort, List.length_finRange]

/-- `relevant_inds[j, i]`: the i-th nearest selected neighbour of row j. -/
def sel (P : Input) (j : Fin P.numEval) (i : Fin P.kEff) : Fin P.nObs :=
  (P.rowOrder j).get ⟨i, by
    rw [length_rowOrder]; exact lt_of_lt_of_le i.isLt (kEff_le_nObs P)⟩

/-- The gathered selected distances `dists[arange(m)[:,None], relevant_inds]`. -/
def dsel (P : Input) (j : Fin P.numEval) (i : Fin P.kEff) : ℚ :=
  P.dist j (P.sel j i)

/-- `np.max(dists, axis=1)` for row j.  Folding `max` with seed 0 agrees
with the true maximum because distances are absolute values. -/
def rowMax (P : Input) (j : Fin P.numEval) : ℚ :=
  (List.ofFn (P.dsel j)).foldr max 0

/-- `normed_dists = dists / np.max(dists, axis=1, keepdims=True)`. -/
def normed (P : Input) (j : Fin P.numEval) (i : Fin P.kEff) : FV :=
  FV.div (FV.num (P.dsel j i)) (FV.num (P.rowMax j))

/-- `weights = np.clip((1 - normed_dists**3) ** 3, 0, 1)`. -/
def weight (P : Input) (j : Fin P.numEval) (i : Fin P.kEff) : FV :=
  FV.clip01 (FV.powN (FV.sub (FV.num 1) (FV.powN (P.normed j i) 3)) 3)

/-- The rational value of a weight (0 as junk on NaN; only used through
`matHasNaN`-guarded paths). -/
def wq (P : Input) (j : Fin P.numEval) (i : Fin P.kEff) : ℚ :=
  match P.weight j i with
  | .num q => q
  | .nan => 0

/-- Design matrix `subset_x**c` for row j: powers `0..degree` of the
gathered neighbour x values. -/
def Xd (P : Input) (j : Fin P.numEval) (i : Fin P.kEff) (c : Fin (P.degree + 1)) : ℚ :=
  P.sx (P.sel j i) ^ (c : ℕ)

/-- Evaluation design row `eval_x**c`. -/
def Ed (P : Input) (j : Fin P.numEval) (c : Fin (P.degree + 1)) : ℚ :=
  P.evalPt j ^ (c : ℕ)

/-- `subset_x.transpose(0,2,1) * weights[:,None,:] @ subset_x` for row j. -/
def XtWX (P : Input) (j : Fin P.numEval) (a b : Fin (P.degree + 1)) : FV :=
  ∑ i : Fin P.kEff, FV.num (P.Xd j i a) * P.weight j i * FV.num (P.Xd j i b)

/-- The same matrix over the rationals (meaningful on NaN-free rows). -/
def ratXtWX (P : Input) (j : Fin P.numEval) :
    Matrix (Fin (P.degree + 1)) (Fin (P.degree + 1)) ℚ :=
  Matrix.of fun a b => ∑ i : Fin P.kEff, P.Xd j i a * P.wq j i * P.Xd j i b

/-- Row j's normal-equations matrix contains NaN entries.  (All entries
are then NaN; equivalently some weight of the row is NaN, which is how
it is phrased here.) -/
def matHasNaN (P : Input) (j : Fin P.numEval) : Prop :=
  ∃ i : Fin P.kEff, P.weight j i = FV.nan

instance (P : Input) (j : Fin P.numEval) : Decidable (P.matHasNaN j) :=
  inferInstanceAs (Decidable (∃ i : Fin P.kEff, P.weight j i = FV.nan))

end Input

/-- Executable determinant by Laplace expansion along row 0 (shown equal
to `Matrix.det` below). -/
def myDet : {k : ℕ} → Matrix (Fin k) (Fin k) ℚ → ℚ
  | 0, _ => 1
  | k + 1, A =>
    ∑ c : Fin (k + 1),
      (-1) ^ (c : ℕ) * A 0 c * myDet (A.submatrix Fin.succ c.succAbove)

theorem myDet_eq_det : ∀ {k : ℕ} (A : Matrix (Fin k) (Fin k) ℚ), myDet A = A.det
  | 0, A => by rw [Matrix.det_fin_zero]; rfl
  | k + 1, A => by
    rw [Matrix.det_succ_row_zero]
    show (∑ c : Fin (k + 1),
        (-1) ^ (c : ℕ) * A 0 c * myDet (A.submatrix Fin.succ c.succAbove)) = _
    exact Finset.sum_congr rfl fun c _ => by rw [myDet_eq_det]

/-- Executable adjugate (shown equal to `Matrix.adjugate` below). -/
def myAdj {k : ℕ} (A : Matrix (Fin k) (Fin k) ℚ) : Matrix (Fin k) (Fin k) ℚ :=
  Matrix.of fun i j => myDet (A.updateRow j (Pi.single i 1))

theorem myAdj_eq_adjugate {k : ℕ} (A : Matrix (Fin k) (Fin k) ℚ) :
    myAdj A = A.adjugate := by
  funext i j
  rw [myAdj, Matrix.of_apply, myDet_eq_det, Matrix.adjugate_apply]

/-- Executable matrix inverse over ℚ, agreeing with `Matrix.inv`. -/
def ratInv {k : ℕ} (A : Matrix (Fin k) (Fin k) ℚ) : Matrix (Fin k) (Fin k) ℚ :=
  (myDet A)⁻¹ • myAdj A

theorem ratInv_eq_inv {k : ℕ} (A : Matrix (Fin k) (Fin k) ℚ) : ratInv A = A⁻¹ := by
  rw [Matrix.inv_def, Ring.inverse_eq_inv, ratInv, myDet_eq_det, myAdj_eq_adjugate]

namespace Input

/-- The batched `np.linalg.inv` raises `LinAlgError` iff some NaN-free
matrix of the batch is exactly singular; NaN matrices pass the zero-pivot
test and just produce NaN results. -/
def singularExists (P : Input) : Prop :=
  ∃ j : Fin P.numEval, ¬P.matHasNaN j ∧ myDet (P.ratXtWX j) = 0

instance (P : Input) : Decidable P.singularExists :=
  inferInstanceAs
    (Decidable (∃ j : Fin P.numEval, ¬P.matHasNaN j ∧ myDet (P.ratXtWX j) = 0))

/-- The j-th inverse returned by `np.linalg.inv` (assuming no batch
element raised): NaN entries throughout on a NaN row, otherwise the
exact inverse. -/
def invRow (P : Input) (j : Fin P.numEval) (a b : Fin (P.degree + 1)) : FV :=
  if P.matHasNaN j then FV.nan else FV.num (ratInv (P.ratXtWX j) a b)

/-- The `(m, degree+1, 1)`-shaped result of
`(inv(XtWX) @ Xt * w @ y[:, :, None])` before the squeeze:
`betasRaw j c = Σ_i ((Σ_b inv[j,c,b] * X[j,i,b]) * w[j,i]) * y[j,i]`. -/
def betasRaw (P : Input) (j : Fin P.numEval) (c : Fin (P.degree + 1)) : FV :=
  ∑ i : Fin P.kEff,
    (∑ b, P.invRow j c b * FV.num (P.Xd j i b)) * P.weight j i
      * FV.num (P.sy (P.sel j i))

/-- `yhat = np.sum(betas.squeeze() * eval_x, axis=-1)`.  `.squeeze()`
removes every axis of extent 1, so when `degree = 0` and there are at
least two evaluation points the betas collapse to shape `(m,)` and
broadcast against `eval_x` of shape `(m, 1)` to an `(m, m)` array whose
row sums are returned; in every other case the product is the intended
row-wise dot product. -/
def yhat (P : Input) (j : Fin P.numEval) : FV :=
  if 2 ≤ P.numEval ∧ P.degree = 0 then
    ∑ j2 : Fin P.numEval,
      P.betasRaw j2 ⟨0, Nat.succ_pos _⟩ * FV.num (P.Ed j ⟨0, Nat.succ_pos _⟩)
  else
    ∑ c, P.betasRaw j c * FV.num (P.Ed j c)

/-- The full `loess` call. -/
def loess (P : Input) : Except LoessErr LoessOut :=
  if 1 ≤ P.numEval ∧ P.kEff = 0 then .error .emptyReduction
  else if P.singularExists then .error .singularMatrix
  else
    match P.evalx with
    | some _ => .ok (.values (List.ofFn fun j => P.yhat j))
    | none =>
      if hd : P.degree = 0 then .error .indexError
      else
        .ok (.pairs (List.ofFn fun j =>
          (FV.num (P.Ed j ⟨1, by omega⟩), P.yhat j)))

/-- Spec-side definition for comparison: the gathered y values of row j
(`y_local[j]`), identical to the code's gather. -/
def yLocal (P : Input) (j : Fin P.numEval) (i : Fin P.kEff) : ℚ :=
  P.sy (P.sel j i)

/-- Spec-side definition for comparison: `X[j]^T diag(weight[j]) y_local[j]`. -/
def ratXtWy (P : Input) (j : Fin P.numEval) (c : Fin (P.degree + 1)) : ℚ :=
  ∑ i : Fin P.kEff, P.Xd j i c * P.wq j i * P.yLocal j i

/-- Spec-side definition for comparison: the closed-form weighted
least-squares solution `(X^T diag(w) X)^{-1} X^T diag(w) y_local` of
row j, stated in the spec's words. -/
def specBetas (P : Input) (j : Fin P.numEval) : Fin (P.degree + 1) → ℚ :=
  (ratInv (P.ratXtWX j)).mulVec (P.ratXtWy j)

/-- Spec-side definition for comparison: the prediction `E[j] · betas[j]`. -/
def specYhat (P : Input) (j : Fin P.numEval) : ℚ :=
  ∑ c, P.Ed j c * P.specBetas j c

/-- Spec-side definition for comparison: the tricubic-weighted average
`Σ w·y / Σ w` of row j. -/
def specWAvg (P : Input) (j : Fin P.numEval) : ℚ :=
  (∑ i : Fin P.kEff, P.wq j i * P.yLocal j i) / (∑ i : Fin P.kEff, P.wq j i)

end Input

section FoldrMax

theorem le_foldr_max {l : List ℚ} {a : ℚ} (h : a ∈ l) : a ≤ l.foldr max 0 := by
  induction l with
  | nil => cases h
  | cons x t ih =>
    rcases List.mem_cons.mp h with rfl | ht
    · exact le_max_left _ _
    · exact le_trans (ih ht) (le_max_right _ _)

theorem foldr_max_nonneg (l : List ℚ) : 0 ≤ l.foldr max 0 := by
  induction l with
  | nil => exact le_refl 0
  | cons x t ih => exact le_trans ih (le_max_right _ _)

theorem foldr_max_mem {l : List ℚ} (hne : l ≠ []) : l.foldr max 0 ∈ l ∨ l.foldr max 0 = 0 := by
  induction l with
  | nil => exact absurd rfl hne
  | cons x t ih =>
    rcases t.eq_nil_or_concat with rfl | _
    · rcases le_total x 0 with h | h
      · exact Or.inr (by simpa [max_eq_right h])
      · exact Or.inl (by simp [max_eq_left h])
    · rcases le_total x (t.foldr max 0) with h | h
      · have : (x :: t).foldr max 0 = t.foldr max 0 := by simp [max_eq_right h]
        rcases ih (by rintro rfl; simp at h; exact absurd h.symm (by simp_all)) with hm | hz
        · exact Or.inl (by rw [this]; exact List.mem_cons_of_mem _ hm)
        · exact Or.inr (by rw [this, hz])
      · exact Or.inl (by simp [max_eq_left h])

end FoldrMax

namespace Input

theorem dsel_nonneg (P : Input) (j : Fin P.numEval) (i : Fin P.kEff) :
    0 ≤ P.dsel j i := abs_nonneg _

theorem dsel_le_rowMax (P : Input) (j : Fin P.numEval) (i : Fin P.kEff) :
    P.dsel j i ≤ P.rowMax j :=
  le_foldr_max (by rw [List.mem_ofFn]; exact ⟨i, rfl⟩)

theorem rowMax_nonneg (P : Input) (j : Fin P.numEval) : 0 ≤ P.rowMax j :=
  foldr_max_nonneg _

theorem exists_dsel_eq_rowMax (P : Input) (j : Fin P.numEval) (hk : 0 < P.kEff) :
    ∃ i : Fin P.kEff, P.dsel j i = P.rowMax j := by
  have hne : List.ofFn (P.dsel j) ≠ [] := by
    have : (List.ofFn (P.dsel j)).length = P.kEff := List.length_ofFn _
    intro h; rw [h] at this; simp at this; omega
  rcases foldr_max_mem hne with hm | hz
  · rcases Set.mem_range.mp ((List.mem_ofFn _ _).mp hm) with ⟨i, hi⟩
    exact ⟨i, hi⟩
  · refine ⟨⟨0, hk⟩, ?_⟩
    have h1 : P.dsel j ⟨0, hk⟩ ≤ P.rowMax j := dsel_le_rowMax P j _
    have h2 : 0 ≤ P.dsel j ⟨0, hk⟩ := dsel_nonneg P j _
    have h3 : P.rowMax j = 0 := hz
    linarith

theorem weight_nan_iff (P : Input) (j : Fin P.numEval) (i : Fin P.kEff) :
    P.weight j i = FV.nan ↔ P.rowMax j = 0 := by
  unfold weight normed FV.div
  by_cases h : P.rowMax j = 0
  · simp [h, FV.powN, FV.sub, FV.clip01]
  · simp [h, FV.powN, FV.sub, FV.clip01]

theorem weight_eq_num (P : Input) (j : Fin P.numEval) (i : Fin P.kEff)
    (h : P.rowMax j ≠ 0) :
    P.weight j i =
      FV.num (max 0 (min 1 ((1 - (P.dsel j i / P.rowMax j) ^ 3) ^ 3))) := by
  unfold weight normed FV.div
  simp only [if_neg h, FV.powN, FV.sub, FV.clip01]

theorem weight_num_bounds (P : Input) {j : Fin P.numEval} {i : Fin P.kEff} {q : ℚ}
    (h : P.weight j i = FV.num q) : 0 ≤ q ∧ q ≤ 1 := by
  by_cases hz : P.rowMax j = 0
  · rw [(weight_nan_iff P j i).mpr hz] at h; cases h
  · rw [weight_eq_num P j i hz] at h
    cases h
    constructor
    · exact le_max_left _ _
    · exact max_le (by norm_num) (min_le_left _ _)

theorem weight_eq_zero_of_dsel_eq_rowMax (P : Input) (j : Fin P.numEval)
    (i : Fin P.kEff) (h : P.rowMax j ≠ 0) (hd : P.dsel j i = P.rowMax j) :
    P.weight j i = FV.num 0 := by
  rw [weight_eq_num P j i h, hd, div_self h]
  norm_num

theorem weight_eq_one_of_dsel_eq_zero (P : Input) (j : Fin P.numEval)
    (i : Fin P.kEff) (h : P.rowMax j ≠ 0) (hd : P.dsel j i = 0) :
    P.weight j i = FV.num 1 := by
  rw [weight_eq_num P j i h, hd]
  norm_num

theorem weight_eq_num_wq (P : Input) {j : Fin P.numEval} {i : Fin P.kEff}
    (h : P.weight j i ≠ FV.nan) : P.weight j i = FV.num (P.wq j i) := by
  unfold wq
  cases hw : P.weight j i with
  | num q => rfl
  | nan => exact absurd hw h

theorem wq_nonneg (P : Input) (j : Fin P.numEval) (i : Fin P.kEff) :
    0 ≤ P.wq j i := by
  unfold wq
  cases hw : P.weight j i with
  | num q => exact (weight_num_bounds P hw).1
  | nan => exact le_refl 0

theorem matHasNaN_iff (P : Input) (j : Fin P.numEval) (hk : 0 < P.kEff) :
    P.matHasNaN j ↔ P.rowMax j = 0 := by
  constructor
  · rintro ⟨i, hi⟩
    exact (weight_nan_iff P j i).mp hi
  · intro h
    exact ⟨⟨0, hk⟩, (weight_nan_iff P j _).mpr h⟩

theorem nObs_eq (P : Input) (hlen : P.xs.length = P.ys.length) :
    P.nObs = P.xs.length := by
  rw [nObs, sortedPts, List.length_insertionSort, List.length_zip, hlen, min_self, ← hlen]

theorem numEval_none (P : Input) (h : P.evalx = none) : P.numEval = P.nObs := by
  rw [numEval, evalList, h, List.length_map, nObs]

theorem numEval_some (P : Input) {es : List ℚ} (h : P.evalx = some es) :
    P.numEval = es.length := by
  rw [numEval, evalList, h]

theorem kEff_pos (P : Input) (hspan : 0 < P.span) (hn : 0 < P.nObs) :
    0 < P.kEff := by
  have hz : 0 < P.kZ := by
    rw [kZ]
    rw [Int.ceil_pos]
    positivity
  unfold kEff
  rw [if_pos (le_of_lt hz)]
  omega

theorem sorted_rowOrder (P : Input) (j : Fin P.numEval) :
    List.Sorted (fun a b => P.dist j a ≤ P.dist j b) (P.rowOrder j) := by
  haveI ht : IsTotal (Fin P.nObs) (fun a b => P.dist j a ≤ P.dist j b) :=
    ⟨fun a b => le_total _ _⟩
  haveI htr : IsTrans (Fin P.nObs) (fun a b => P.dist j a ≤ P.dist j b) :=
    ⟨fun a b c hab hbc => le_trans hab hbc⟩
  exact List.sorted_insertionSort _ _

theorem mem_rowOrder (P : Input) (j : Fin P.numEval) (i : Fin P.nObs) :
    i ∈ P.rowOrder j :=
  (List.Perm.mem_iff (List.perm_insertionSort _ _)).mpr (List.mem_finRange i)

theorem dsel_zero_le_dist (P : Input) (j : Fin P.numEval) (hk : 0 < P.kEff)
    (i : Fin P.nObs) : P.dsel j ⟨0, hk⟩ ≤ P.dist j i := by
  have hmem := mem_rowOrder P j i
  have hsorted := sorted_rowOrder P j
  have hlen : 0 < (P.rowOrder j).length := by
    rw [length_rowOrder]; exact lt_of_lt_of_le hk (kEff_le_nObs P)
  rcases List.exists_cons_of_ne_nil (List.ne_nil_of_length_pos hlen) with ⟨hd, tl, hcons⟩
  have hget : P.sel j ⟨0, hk⟩ = hd := by
    unfold sel
    have : ∀ (l : List (Fin P.nObs)) (hl : l = hd :: tl) (h0 : 0 < l.length),
        l.get ⟨0, h0⟩ = hd := by
      rintro l rfl h0; rfl
    exact this _ hcons _
  rw [dsel, hget]
  rw [hcons] at hmem hsorted
  rcases List.mem_cons.mp hmem with rfl | htl
  · exact le_refl _
  · exact (List.sorted_cons.mp hsorted).1 i htl

theorem weight_num_of_not_nan (P : Input) {j : Fin P.numEval} (hm : ¬P.matHasNaN j)
    (i : Fin P.kEff) : P.weight j i = FV.num (P.wq j i) :=
  weight_eq_num_wq P fun h => hm ⟨i, h⟩

theorem XtWX_eq_num (P : Input) {j : Fin P.numEval} (hm : ¬P.matHasNaN j)
    (a b : Fin (P.degree + 1)) : P.XtWX j a b = FV.num (P.ratXtWX j a b) := by
  unfold XtWX ratXtWX
  rw [Matrix.of_apply, ← FV.sum_num]
  exact Finset.sum_congr rfl fun i _ => by
    rw [weight_num_of_not_nan P hm i, FV.num_mul, FV.num_mul]

theorem invRow_eq_num (P : Input) {j : Fin P.numEval} (hm : ¬P.matHasNaN j)
    (a b : Fin (P.degree + 1)) :
    P.invRow j a b = FV.num (ratInv (P.ratXtWX j) a b) := by
  rw [invRow, if_neg hm]

theorem betasRaw_eq_num (P : Input) {j : Fin P.numEval} (hm : ¬P.matHasNaN j)
    (c : Fin (P.degree + 1)) : P.betasRaw j c = FV.num (P.specBetas j c) := by
  unfold betasRaw
  have hstep : ∀ i : Fin P.kEff,
      (∑ b, P.invRow j c b * FV.num (P.Xd j i b)) * P.weight j i
          * FV.num (P.sy (P.sel j i))
        = FV.num ((∑ b, ratInv (P.ratXtWX j) c b * P.Xd j i b) * P.wq j i
          * P.sy (P.sel j i)) := by
    intro i
    rw [weight_num_of_not_nan P hm i]
    rw [show (∑ b, P.invRow j c b * FV.num (P.Xd j i b))
        = FV.num (∑ b, ratInv (P.ratXtWX j) c b * P.Xd j i b) by
      rw [← FV.sum_num]
      exact Finset.sum_congr rfl fun b _ => by rw [invRow_eq_num P hm, FV.num_mul]]
    rw [FV.num_mul, FV.num_mul]
  rw [Finset.sum_congr rfl fun i _ => hstep i, FV.sum_num]
  congr 1
  have hrhs : P.specBetas j c
      = ∑ b, ratInv (P.ratXtWX j) c b * ∑ i, P.Xd j i b * P.wq j i * P.yLocal j i := by
    rw [specBetas]
    simp only [Matrix.mulVec, Matrix.dotProduct, ratXtWy]
  rw [hrhs]
  calc
    (∑ i : Fin P.kEff,
        (∑ b, ratInv (P.ratXtWX j) c b * P.Xd j i b) * P.wq j i * P.sy (P.sel j i))
      = ∑ i : Fin P.kEff, ∑ b,
          ratInv (P.ratXtWX j) c b * (P.Xd j i b * P.wq j i * P.sy (P.sel j i)) := by
        refine Finset.sum_congr rfl fun i _ => ?_
        rw [Finset.sum_mul, Finset.sum_mul]
        exact Finset.sum_congr rfl fun b _ => by ring
    _ = ∑ b, ∑ i : Fin P.kEff,
          ratInv (P.ratXtWX j) c b * (P.Xd j i b * P.wq j i * P.sy (P.sel j i)) :=
        Finset.sum_comm
    _ = ∑ b, ratInv (P.ratXtWX j) c b
          * ∑ i, P.Xd j i b * P.wq j i * P.yLocal j i := by
        refine Finset.sum_congr rfl fun b _ => ?_
        rw [Finset.mul_sum]
        exact Finset.sum_congr rfl fun i _ => by rw [yLocal]

theorem betasRaw_nan (P : Input) {j : Fin P.numEval} (hm : P.matHasNaN j)
    (c : Fin (P.degree + 1)) : P.betasRaw j c = FV.nan := by
  rcases hm with ⟨i, hi⟩
  unfold betasRaw
  exact FV.sum_eq_nan i (Finset.mem_univ i) (by rw [hi, FV.mul_nan, FV.nan_mul])

theorem yhat_nan_of_all (P : Input) (hall : ∀ j2 : Fin P.numEval, P.matHasNaN j2)
    (j : Fin P.numEval) : P.yhat j = FV.nan := by
  unfold yhat
  split
  · exact FV.sum_eq_nan j (Finset.mem_univ j)
      (by rw [betasRaw_nan P (hall j), FV.nan_mul])
  · exact FV.sum_eq_nan ⟨0, Nat.succ_pos _⟩ (Finset.mem_univ _)
      (by rw [betasRaw_nan P (hall j), FV.nan_mul])

theorem myDet_ratXtWX_eq_zero (P : Input) (hkd : P.kEff < P.degree + 1)
    (j : Fin P.numEval) : myDet (P.ratXtWX j) = 0 := by
  rw [myDet_eq_det]
  by_contra hdet
  have hunit : IsUnit (P.ratXtWX j) :=
    (Matrix.isUnit_iff_isUnit_det _).mpr (isUnit_iff_ne_zero.mpr hdet)
  have hrank : (P.ratXtWX j).rank = P.degree + 1 := by
    rw [Matrix.rank_of_isUnit _ hunit, Fintype.card_fin]
  have hfact : P.ratXtWX j
      = (((Matrix.of fun (i : Fin P.kEff) (c : Fin (P.degree + 1)) =>
            P.Xd j i c).transpose)
          : Matrix (Fin (P.degree + 1)) (Fin P.kEff) ℚ)
        * ((Matrix.of fun (i : Fin P.kEff) (c : Fin (P.degree + 1)) =>
            P.wq j i * P.Xd j i c) : Matrix (Fin P.kEff) (Fin (P.degree + 1)) ℚ) := by
    ext a b
    rw [Matrix.mul_apply, ratXtWX, Matrix.of_apply]
    exact Finset.sum_congr rfl fun i _ => by
      rw [Matrix.transpose_apply, Matrix.of_apply, Matrix.of_apply]; ring
  have hle : (P.ratXtWX j).rank ≤ P.kEff := by
    rw [hfact]
    exact le_trans (Matrix.rank_mul_le_left _ _)
      (le_trans (Matrix.rank_le_card_width _) (le_of_eq (Fintype.card_fin _)))
  omega

theorem loess_empty_reduction (P : Input) (h1 : 1 ≤ P.numEval ∧ P.kEff = 0) :
    P.loess = .error .emptyReduction := by
  unfold loess
  rw [if_pos h1]

theorem loess_singular (P : Input) (h1 : ¬(1 ≤ P.numEval ∧ P.kEff = 0))
    (h2 : P.singularExists) : P.loess = .error .singularMatrix := by
  unfold loess
  rw [if_neg h1, if_pos h2]

theorem loess_values (P : Input) {es : List ℚ} (he : P.evalx = some es)
    (h1 : ¬(1 ≤ P.numEval ∧ P.kEff = 0)) (h2 : ¬P.singularExists) :
    P.loess = .ok (.values (List.ofFn fun j => P.yhat j)) := by
  unfold loess
  rw [if_neg h1, if_neg h2, he]

theorem loess_index_error (P : Input) (he : P.evalx = none)
    (h1 : ¬(1 ≤ P.numEval ∧ P.kEff = 0)) (h2 : ¬P.singularExists)
    (hd : P.degree = 0) : P.loess = .error .indexError := by
  unfold loess
  rw [if_neg h1, if_neg h2, he]
  exact dif_pos hd

theorem loess_pairs (P : Input) (he : P.evalx = none)
    (h1 : ¬(1 ≤ P.numEval ∧ P.kEff = 0)) (h2 : ¬P.singularExists)
    (hd : ¬P.degree = 0) :
    P.loess = .ok (.pairs (List.ofFn fun j =>
      (FV.num (P.Ed j ⟨1, by omega⟩), P.yhat j))) := by
  unfold loess
  rw [if_neg h1, if_neg h2, he]
  exact dif_neg hd

theorem gates_of_loess_ok (P : Input) {r : LoessOut} (h : P.loess = .ok r) :
    ¬(1 ≤ P.numEval ∧ P.kEff = 0) ∧ ¬P.singularExists := by
  unfold loess at h
  by_cases c1 : 1 ≤ P.numEval ∧ P.kEff = 0
  · rw [if_pos c1] at h; cases h
  · by_cases c2 : P.singularExists
    · rw [if_neg c1, if_pos c2] at h; cases h
    · exact ⟨c1, c2⟩

theorem evalPt_none_eq (P : Input) (he : P.evalx = none) (j : Fin P.numEval)
    (hj : (j : ℕ) < P.sortedPts.length) :
    P.evalPt j = (P.sortedPts[(j : ℕ)]).1 := by
  rw [evalPt, List.get_eq_getElem]
  have hl : P.evalList = P.sortedPts.map Prod.fst := by rw [evalList, he]
  simp only [hl, List.getElem_map]

theorem map_fst_pairs (P : Input) (he : P.evalx = none) (hd : ¬P.degree = 0) :
    (List.ofFn fun j => (FV.num (P.Ed j ⟨1, by omega⟩), P.yhat j)).map Prod.fst
      = (P.sortedPts.map Prod.fst).map FV.num := by
  rw [List.map_ofFn]
  refine List.ext_getElem ?_ fun i hi1 hi2 => ?_
  · rw [List.length_ofFn, List.length_map, List.length_map, P.numEval_none he]
    rfl
  · rw [List.getElem_ofFn, List.getElem_map, List.getElem_map]
    have hi0 : i < P.numEval := by rwa [List.length_ofFn] at hi1
    have hj : ((⟨i, hi0⟩ : Fin P.numEval) : ℕ) < P.sortedPts.length := by
      rwa [List.length_map, List.length_map] at hi2
    have hEd : P.Ed ⟨i, hi0⟩ ⟨1, by omega⟩ = P.evalPt ⟨i, hi0⟩ := by
      rw [Ed]; exact pow_one _
    simp only [Function.comp_apply]
    rw [show (⟨i, by simpa using hi1⟩ : Fin P.numEval) = ⟨i, hi0⟩ from rfl, hEd,
      P.evalPt_none_eq he _ hj]

/-- Coefficient vector of the exact linear signal `y = a·x + b` in the
polynomial basis of the local fit: `(b, a, 0, …, 0)`. -/
def linCoef (P : Input) (a b : ℚ) (c : Fin (P.degree + 1)) : ℚ :=
  if (c : ℕ) = 0 then b else if (c : ℕ) = 1 then a else 0

theorem sum_pow_mul_linCoef (P : Input) (a b : ℚ) (hdeg : 1 ≤ P.degree) (x : ℚ) :
    (∑ c : Fin (P.degree + 1), x ^ (c : ℕ) * P.linCoef a b c) = b + a * x := by
  have h01 : (1 : ℕ) < P.degree + 1 := by omega
  set c0 : Fin (P.degree + 1) := ⟨0, Nat.succ_pos _⟩ with hc0
  set c1 : Fin (P.degree + 1) := ⟨1, h01⟩ with hc1
  have hne : c1 ≠ c0 := by
    intro h
    have := congrArg (fun c : Fin (P.degree + 1) => (c : ℕ)) h
    simp [hc0, hc1] at this
  rw [← Finset.add_sum_erase _ _ (Finset.mem_univ c0),
    ← Finset.add_sum_erase _ _ (Finset.mem_erase.mpr ⟨hne, Finset.mem_univ c1⟩)]
  have hrest : (∑ c ∈ (Finset.univ.erase c0).erase c1,
      x ^ (c : ℕ) * P.linCoef a b c) = 0 := by
    refine Finset.sum_eq_zero fun c hc => ?_
    obtain ⟨hcne1, hcmem⟩ := Finset.mem_erase.mp hc
    obtain ⟨hcne0, -⟩ := Finset.mem_erase.mp hcmem
    have h0 : (c : ℕ) ≠ 0 := fun h => hcne0 (Fin.ext (by rw [h]))
    have h1 : (c : ℕ) ≠ 1 := fun h => hcne1 (Fin.ext (by rw [h]))
    rw [linCoef, if_neg h0, if_neg h1, mul_zero]
  rw [hrest]
  have hv0 : P.linCoef a b c0 = b := by rw [linCoef]; rfl
  have hv1 : P.linCoef a b c1 = a := by rw [linCoef]; rfl
  rw [hv0, hv1]
  show x ^ ((c0 : ℕ)) * b + (x ^ ((c1 : ℕ)) * a + 0) = b + a * x
  rw [show ((c0 : ℕ)) = 0 from rfl, show ((c1 : ℕ)) = 1 from rfl, pow_zero, pow_one]
  ring

theorem specBetas_linear (P : Input) (a b : ℚ) (j : Fin P.numEval)
    (hdeg : 1 ≤ P.degree)
    (hlin : ∀ i : Fin P.kEff, P.yLocal j i = a * P.sx (P.sel j i) + b)
    (hdet : myDet (P.ratXtWX j) ≠ 0) :
    P.specBetas j = P.linCoef a b := by
  have hv : P.ratXtWy j = (P.ratXtWX j).mulVec (P.linCoef a b) := by
    funext c
    have hrhs : (P.ratXtWX j).mulVec (P.linCoef a b) c
        = ∑ d2, (∑ i, P.Xd j i c * P.wq j i * P.Xd j i d2) * P.linCoef a b d2 := by
      simp only [Matrix.mulVec, Matrix.dotProduct, ratXtWX, Matrix.of_apply]
    rw [hrhs, ratXtWy]
    calc
      (∑ i, P.Xd j i c * P.wq j i * P.yLocal j i)
        = ∑ i, ∑ d2, P.Xd j i c * P.wq j i * P.Xd j i d2 * P.linCoef a b d2 := by
          refine Finset.sum_congr rfl fun i _ => ?_
          have hy : P.yLocal j i
              = ∑ d2, P.Xd j i d2 * P.linCoef a b d2 := by
            have hs := P.sum_pow_mul_linCoef a b hdeg (P.sx (P.sel j i))
            rw [hlin i]
            rw [show (∑ d2, P.Xd j i d2 * P.linCoef a b d2)
              = ∑ d2 : Fin (P.degree + 1),
                  (P.sx (P.sel j i)) ^ (d2 : ℕ) * P.linCoef a b d2 from rfl, hs]
            ring
          rw [hy, Finset.mul_sum]
          exact Finset.sum_congr rfl fun d2 _ => by ring
      _ = ∑ d2, ∑ i, P.Xd j i c * P.wq j i * P.Xd j i d2 * P.linCoef a b d2 :=
          Finset.sum_comm
      _ = ∑ d2, (∑ i, P.Xd j i c * P.wq j i * P.Xd j i d2) * P.linCoef a b d2 := by
          refine Finset.sum_congr rfl fun d2 _ => ?_
          rw [Finset.sum_mul]
  have hunit : IsUnit (P.ratXtWX j).det := by
    rw [← myDet_eq_det]
    exact isUnit_iff_ne_zero.mpr hdet
  rw [specBetas, hv, ratInv_eq_inv, Matrix.mulVec_mulVec,
    Matrix.nonsing_inv_mul _ hunit, Matrix.one_mulVec]

end Input

/-- Every prediction carried by a `loess` result (the `yhat` of the
values format, the second components of the pairs format) is NaN. -/
def PredsAllNaN : LoessOut → Prop
  | .pairs l => ∀ p ∈ l, p.2 = FV.nan
  | .values l => ∀ v ∈ l, v = FV.nan

/-- C1: claimed, for every evaluation point j, betas[j] is the
closed-form weighted least-squares solution and yhat[j] = E[j] · betas[j].
The betas are indeed the closed form, but `.squeeze()` removes all axes
of extent 1, so for degree 0 with two evaluation points the code returns
`yhat = [1, 1]` while the claimed per-row predictions `E[j] · betas[j]`
are `[0, 1]`. -/
theorem C1_prediction_formula_code_bug :
    (Input.mk [0, 1] [0, 1] (some [0, 1]) 0 1).loess
        = .ok (.values [FV.num 1, FV.num 1])
      ∧ List.ofFn (Input.mk [0, 1] [0, 1] (some [0, 1]) 0 1).specYhat = [0, 1] :=
  ⟨by with_unfolding_all rfl, by with_unfolding_all rfl⟩

/-- C2: claimed, for degree 0 each prediction is the tricubic-weighted
average `Σ w·y / Σ w` of its own neighbourhood.  The weighted averages at
this input are `[0, 1]`, but the `.squeeze()` collapse makes the code
return the sum of all rows' averages, `[1, 1]`, for every point. -/
theorem C2_degree_zero_average_code_bug :
    (Input.mk [0, 1] [0, 1] (some [0, 1]) 0 (3 / 4)).loess
        = .ok (.values [FV.num 1, FV.num 1])
      ∧ List.ofFn (Input.mk [0, 1] [0, 1] (some [0, 1]) 0 (3 / 4)).specWAvg
        = [0, 1] :=
  ⟨by with_unfolding_all rfl, by with_unfolding_all rfl⟩

/-- C3 counterexample: with `eval_x` absent and degree 0, the call does
not return the claimed n sorted pairs; building the paired output reads
column 1 of a one-column design matrix and fails with an index error. -/
theorem C3_output_shape_counterexample :
    (Input.mk [0, 1] [0, 1] none 0 1).loess = .error .indexError := by
  with_unfolding_all rfl

/-- C3 (amended): whenever a call returns successfully, the output has
the claimed shape: with `eval_x` absent the result is the pairs format,
one pair per observation, first components the input x values sorted
ascending; with an explicit `eval_x` the result is the values format with
exactly one prediction per evaluation point, in order. -/
theorem C3_output_shape (P : Input) (hlen : P.xs.length = P.ys.length)
    {r : LoessOut} (hok : P.loess = .ok r) :
    (P.evalx = none →
      ∃ ps, r = .pairs ps ∧ ps.length = P.xs.length
        ∧ ps.map Prod.fst = (P.sortedPts.map Prod.fst).map FV.num
        ∧ List.Sorted (· ≤ ·) (P.sortedPts.map Prod.fst)
        ∧ (P.sortedPts.map Prod.fst).Perm P.xs)
    ∧ (∀ es, P.evalx = some es →
        ∃ vs, r = .values vs ∧ vs.length = es.length) := by
  obtain ⟨h1, h2⟩ := P.gates_of_loess_ok hok
  constructor
  · intro he
    by_cases hd : P.degree = 0
    · rw [P.loess_index_error he h1 h2 hd] at hok; cases hok
    · rw [P.loess_pairs he h1 h2 hd] at hok
      refine ⟨_, (Except.ok.injEq _ _).mp hok.symm, ?_, ?_, ?_, ?_⟩
      · rw [List.length_ofFn, ← P.nObs_eq hlen, P.numEval_none he]
      · exact P.map_fst_pairs he hd
      · haveI ht : IsTotal (ℚ × ℚ) (fun p q : ℚ × ℚ => p.1 ≤ q.1) :=
          ⟨fun a b => le_total _ _⟩
        haveI htr : IsTrans (ℚ × ℚ) (fun p q : ℚ × ℚ => p.1 ≤ q.1) :=
          ⟨fun a b c hab hbc => le_trans hab hbc⟩
        have hsorted : List.Sorted (fun p q : ℚ × ℚ => p.1 ≤ q.1) P.sortedPts :=
          List.sorted_insertionSort _ _
        exact List.Pairwise.map _ (fun a b hab => hab) hsorted
      · have hperm : P.sortedPts.Perm (P.xs.zip P.ys) := List.perm_insertionSort _ _
        have hmap := hperm.map Prod.fst
        rwa [List.map_fst_zip _ _ (le_of_eq hlen)] at hmap
  · intro es he
    rw [P.loess_values he h1 h2] at hok
    refine ⟨_, (Except.ok.injEq _ _).mp hok.symm, ?_⟩
    rw [List.length_ofFn, P.numEval_some he]

/-- C3 witness: a successful call on four points with `eval_x` absent,
discharging the hypotheses of the amended shape theorem. -/
theorem C3_output_shape_witness :
    (Input.mk [0, 1, 2, 3] [0, 0, 0, 0] none 1 1).loess
        = .ok (.pairs [(FV.num 0, FV.num 0), (FV.num 1, FV.num 0),
            (FV.num 2, FV.num 0), (FV.num 3, FV.num 0)])
      ∧ ((Input.mk [0, 1, 2, 3] [0, 0, 0, 0] none 1 1).evalx = none →
        ∃ ps, (LoessOut.pairs [(FV.num 0, FV.num 0), (FV.num 1, FV.num 0),
              (FV.num 2, FV.num 0), (FV.num 3, FV.num 0)]) = .pairs ps
          ∧ ps.length = (Input.mk [0, 1, 2, 3] [0, 0, 0, 0] none 1 1).xs.length
          ∧ ps.map Prod.fst
            = ((Input.mk [0, 1, 2, 3] [0, 0, 0, 0] none 1 1).sortedPts.map
                Prod.fst).map FV.num
          ∧ List.Sorted (· ≤ ·)
              ((Input.mk [0, 1, 2, 3] [0, 0, 0, 0] none 1 1).sortedPts.map Prod.fst)
          ∧ ((Input.mk [0, 1, 2, 3] [0, 0, 0, 0] none 1 1).sortedPts.map
              Prod.fst).Perm (Input.mk [0, 1, 2, 3] [0, 0, 0, 0] none 1 1).xs) := by
  have h := C3_output_shape (Input.mk [0, 1, 2, 3] [0, 0, 0, 0] none 1 1) rfl
    (show (Input.mk [0, 1, 2, 3] [0, 0, 0, 0] none 1 1).loess
        = .ok (.pairs [(FV.num 0, FV.num 0), (FV.num 1, FV.num 0),
          (FV.num 2, FV.num 0), (FV.num 3, FV.num 0)]) by with_unfolding_all rfl)
  exact ⟨by with_unfolding_all rfl, h.1⟩

/-- C4: claimed, `span ≤ 0` is explicitly validated and reported as an
invalid-span error before neighbour selection.  The code performs no such
validation: `span = 0` reaches the kernel-weighting stage and dies there
with the zero-size-reduction error of `np.max`, and a negative span whose
ceil is negative even slices the neighbour list from the end and returns
a result with no error at all. -/
theorem C4_no_span_validation_code_bug :
    (Input.mk [0] [0] (some [0]) 2 0).loess = .error .emptyReduction
      ∧ (Input.mk [0, 1, 2, 3, 4, 5, 6, 7, 8, 9] [0, 1, 2, 3, 4, 5, 6, 7, 8, 9]
          (some [1 / 2]) 2 (-3 / 20)).loess = .ok (.values [FV.num (1 / 2)]) :=
  ⟨by with_unfolding_all rfl, by with_unfolding_all rfl⟩

/-- C5 counterexample: at the claim's own example (n = 10, span = 0.05,
degree = 2, so k = 1) with `eval_x` absent, every evaluation point's
single nearest neighbour is itself at distance 0, the weights are NaN,
the NaN matrices pass the inversion without a singularity error, and the
call returns a full pair sequence of NaN predictions instead of raising
any error. -/
theorem C5_underdetermined_counterexample :
    (Input.mk [0, 1, 2, 3, 4, 5, 6, 7, 8, 9] [0, 1, 2, 3, 4, 5, 6, 7, 8, 9]
        none 2 (1 / 20)).loess
      = .ok (.pairs (List.ofFn fun j : Fin 10 => (FV.num j, FV.nan))) := by
  with_unfolding_all rfl

/-- C5 (amended): when the neighbourhood size k is smaller than
degree + 1 and every evaluation row's maximum selected distance is
positive, the batched inversion does fail — with the generic
singular-matrix error, not a descriptive underdetermined-fit error; rows
whose maximum selected distance is zero instead turn into NaN and can
make the call return NaN predictions without any error. -/
theorem C5_underdetermined_singular (P : Input) (hk : 1 ≤ P.kEff)
    (hkd : P.kEff < P.degree + 1) (hm : 1 ≤ P.numEval)
    (hpos : ∀ j : Fin P.numEval, 0 < P.rowMax j) :
    P.loess = .error .singularMatrix := by
  apply P.loess_singular
  · rintro ⟨-, h0⟩; omega
  · refine ⟨⟨0, hm⟩, ?_, P.myDet_ratXtWX_eq_zero hkd _⟩
    rw [P.matHasNaN_iff _ (by omega)]
    exact ne_of_gt (hpos _)

/-- C5 witness: two observations, k = 1 < degree + 1 = 2, a single
evaluation point at positive distance from its neighbour; the call fails
with the singular-matrix error. -/
theorem C5_underdetermined_singular_witness :
    1 ≤ (Input.mk [0, 1] [0, 1] (some [1 / 4]) 1 (1 / 2)).kEff
      ∧ (Input.mk [0, 1] [0, 1] (some [1 / 4]) 1 (1 / 2)).kEff
        < (Input.mk [0, 1] [0, 1] (some [1 / 4]) 1 (1 / 2)).degree + 1
      ∧ (∀ j, 0 < (Input.mk [0, 1] [0, 1] (some [1 / 4]) 1 (1 / 2)).rowMax j)
      ∧ (Input.mk [0, 1] [0, 1] (some [1 / 4]) 1 (1 / 2)).loess
        = .error .singularMatrix :=
  ⟨by with_unfolding_all decide, by with_unfolding_all decide,
    by with_unfolding_all decide,
    C5_underdetermined_singular _ (by with_unfolding_all decide)
      (by with_unfolding_all decide) (by with_unfolding_all decide)
      (by with_unfolding_all decide)⟩

/-- C6: for every evaluation row whose maximum selected distance is
positive, all tricubic weights are finite values in [0, 1], every
neighbour sitting at the maximum selected distance has weight exactly 0,
and such a neighbour exists. -/
theorem C6_weight_invariant (P : Input) (j : Fin P.numEval) (hk : 0 < P.kEff)
    (hpos : 0 < P.rowMax j) :
    (∀ i, ∃ q, P.weight j i = FV.num q ∧ 0 ≤ q ∧ q ≤ 1)
      ∧ (∀ i, P.dsel j i = P.rowMax j → P.weight j i = FV.num 0)
      ∧ (∃ i, P.dsel j i = P.rowMax j) := by
  have hne : P.rowMax j ≠ 0 := ne_of_gt hpos
  refine ⟨fun i => ?_, fun i hi => P.weight_eq_zero_of_dsel_eq_rowMax j i hne hi,
    P.exists_dsel_eq_rowMax j hk⟩
  refine ⟨_, P.weight_eq_num j i hne, ?_⟩
  exact Input.weight_num_bounds P (P.weight_eq_num j i hne)

/-- C6 witness: two observations, evaluation point 0, row maximum 1;
the weights are 1 and 0, the neighbour at the maximum distance has
weight 0. -/
theorem C6_weight_invariant_witness :
    0 < (Input.mk [0, 1] [0, 1] (some [0]) 2 1).kEff
      ∧ (0:ℚ) < (Input.mk [0, 1] [0, 1] (some [0]) 2 1).rowMax
          ⟨0, by with_unfolding_all decide⟩
      ∧ ((∀ i, ∃ q, (Input.mk [0, 1] [0, 1] (some [0]) 2 1).weight
              ⟨0, by with_unfolding_all decide⟩ i = FV.num q ∧ 0 ≤ q ∧ q ≤ 1)
        ∧ (∀ i, (Input.mk [0, 1] [0, 1] (some [0]) 2 1).dsel
              ⟨0, by with_unfolding_all decide⟩ i
            = (Input.mk [0, 1] [0, 1] (some [0]) 2 1).rowMax
              ⟨0, by with_unfolding_all decide⟩ →
            (Input.mk [0, 1] [0, 1] (some [0]) 2 1).weight
              ⟨0, by with_unfolding_all decide⟩ i = FV.num 0)
        ∧ (∃ i, (Input.mk [0, 1] [0, 1] (some [0]) 2 1).dsel
              ⟨0, by with_unfolding_all decide⟩ i
            = (Input.mk [0, 1] [0, 1] (some [0]) 2 1).rowMax
              ⟨0, by with_unfolding_all decide⟩)) :=
  ⟨by with_unfolding_all decide, by with_unfolding_all decide,
    C6_weight_invariant _ _ (by with_unfolding_all decide)
      (by with_unfolding_all decide)⟩

/-- C7: on exactly linear data `y = a·x + b` with degree at least 1, any
successful call whose evaluation rows all have a positive maximum
selected distance reproduces the signal exactly: every prediction equals
`a·eval_x + b`, and with an explicit `eval_x` the returned value list is
exactly those numbers.  (Exact rational arithmetic subsumes the claimed
1e-9 tolerance.) -/
theorem C7_linear_reproduction (P : Input) (a b : ℚ)
    (hlin : ∀ p ∈ P.xs.zip P.ys, p.2 = a * p.1 + b)
    (hdeg : 1 ≤ P.degree) {r : LoessOut} (hok : P.loess = .ok r)
    (hpos : ∀ j : Fin P.numEval, 0 < P.rowMax j) :
    (∀ j, P.yhat j = FV.num (a * P.evalPt j + b))
      ∧ (∀ es, P.evalx = some es →
          r = .values (List.ofFn fun j => FV.num (a * P.evalPt j + b))) := by
  obtain ⟨h1, h2⟩ := P.gates_of_loess_ok hok
  have hyhat : ∀ j, P.yhat j = FV.num (a * P.evalPt j + b) := by
    intro j
    have hm : 1 ≤ P.numEval := by have := j.isLt; omega
    have hk : 0 < P.kEff := by
      by_contra hk0
      exact h1 ⟨hm, by omega⟩
    have hnn : ¬P.matHasNaN j := by
      rw [P.matHasNaN_iff j hk]
      exact ne_of_gt (hpos j)
    have hdet : myDet (P.ratXtWX j) ≠ 0 := fun h => h2 ⟨j, hnn, h⟩
    have hlin2 : ∀ i : Fin P.kEff, P.yLocal j i = a * P.sx (P.sel j i) + b := by
      intro i
      have hmem : P.sortedPts.get (P.sel j i) ∈ P.sortedPts :=
        List.get_mem _ _ _
      have hmem2 : P.sortedPts.get (P.sel j i) ∈ P.xs.zip P.ys :=
        ((List.perm_insertionSort _ _).mem_iff).mp hmem
      exact hlin _ hmem2
    have hbeta : P.specBetas j = P.linCoef a b :=
      P.specBetas_linear a b j hdeg hlin2 hdet
    rw [Input.yhat, if_neg (by rintro ⟨-, hd0⟩; omega)]
    calc
      (∑ c, P.betasRaw j c * FV.num (P.Ed j c))
        = ∑ c, FV.num (P.linCoef a b c * P.Ed j c) := by
          refine Finset.sum_congr rfl fun c _ => ?_
          rw [P.betasRaw_eq_num hnn, hbeta, FV.num_mul]
      _ = FV.num (∑ c, P.linCoef a b c * P.Ed j c) := FV.sum_num _ _
      _ = FV.num (a * P.evalPt j + b) := by
          congr 1
          have hs := P.sum_pow_mul_linCoef a b hdeg (P.evalPt j)
          rw [show (∑ c, P.linCoef a b c * P.Ed j c)
            = ∑ c : Fin (P.degree + 1),
                (P.evalPt j) ^ (c : ℕ) * P.linCoef a b c from
              Finset.sum_congr rfl fun c _ => by rw [Input.Ed]; ring, hs]
          ring
  refine ⟨hyhat, fun es he => ?_⟩
  rw [P.loess_values he h1 h2] at hok
  rw [(Except.ok.injEq _ _).mp hok.symm]
  exact congrArg LoessOut.values (List.ofFn_congr rfl _ ▸ congrArg List.ofFn
    (funext fun j => hyhat j))

/-- C8: an explicit empty `eval_x` raises no error and yields an empty
prediction sequence, for every valid observation set, degree and span. -/
theorem C8_empty_eval (xs ys : List ℚ) (degree : ℕ) (span : ℚ)
    (hlen : xs.length = ys.length) (hn : 1 ≤ xs.length)
    (hs0 : 0 < span) (hs1 : span ≤ 1) :
    (Input.mk xs ys (some []) degree span).loess = .ok (.values []) := by
  have hm : (Input.mk xs ys (some []) degree span).numEval = 0 := rfl
  have h1 : ¬(1 ≤ (Input.mk xs ys (some []) degree span).numEval
      ∧ (Input.mk xs ys (some []) degree span).kEff = 0) := by
    rintro ⟨h, -⟩; omega
  have h2 : ¬(Input.mk xs ys (some []) degree span).singularExists := by
    rintro ⟨j, -⟩
    have hj := j.isLt
    omega
  rw [(Input.mk xs ys (some []) degree span).loess_values rfl h1 h2]
  have hnil : (List.ofFn fun j => (Input.mk xs ys (some []) degree span).yhat j)
      = [] := List.length_eq_zero.mp (by rw [List.length_ofFn, hm])
  rw [hnil]

/-- C8 witness: a concrete call with an empty `eval_x` returning the
empty value list. -/
theorem C8_empty_eval_witness :
    ([0, 5] : List ℚ).length = ([1, 2] : List ℚ).length
      ∧ (0:ℚ) < 3 / 4
      ∧ (Input.mk [0, 5] [1, 2] (some []) 2 (3 / 4)).loess = .ok (.values []) :=
  ⟨rfl, by norm_num,
    C8_empty_eval [0, 5] [1, 2] 2 (3 / 4) rfl (by decide) (by norm_num) (by norm_num)⟩

theorem myDet_fin_one (A : Matrix (Fin 1) (Fin 1) ℚ) : myDet A = A 0 0 := by
  rw [myDet_eq_det, Matrix.det_fin_one]

theorem Input.wq_eq_of_weight_num (P : Input) {j : Fin P.numEval} {i : Fin P.kEff}
    {q : ℚ} (h : P.weight j i = FV.num q) : P.wq j i = q := by
  unfold Input.wq
  rw [h]

/-- C9: with `eval_x` absent and degree 0, every call on valid data dies
with the index error from reading column 1 of the one-column evaluation
design matrix; the paired output is never produced.  (The inversion
cannot fail first: each NaN-free row selects its own evaluation point at
distance 0, giving it weight 1, so the 1-by-1 normal matrix is a sum of
weights at least 1.) -/
theorem C9_paired_degree_zero_index_error (xs ys : List ℚ) (span : ℚ)
    (hlen : xs.length = ys.length) (hn : 1 ≤ xs.length) (hs0 : 0 < span) :
    (Input.mk xs ys none 0 span).loess = .error .indexError := by
  have hnObs : (Input.mk xs ys none 0 span).nObs = xs.length :=
    (Input.mk xs ys none 0 span).nObs_eq hlen
  have hm : (Input.mk xs ys none 0 span).numEval
      = (Input.mk xs ys none 0 span).nObs :=
    (Input.mk xs ys none 0 span).numEval_none rfl
  have hk : 0 < (Input.mk xs ys none 0 span).kEff :=
    (Input.mk xs ys none 0 span).kEff_pos hs0 (by omega)
  have h1 : ¬(1 ≤ (Input.mk xs ys none 0 span).numEval
      ∧ (Input.mk xs ys none 0 span).kEff = 0) := by
    rintro ⟨-, h⟩; omega
  have h2 : ¬(Input.mk xs ys none 0 span).singularExists := by
    rintro ⟨j, hnn, hdet⟩
    have hrm : (Input.mk xs ys none 0 span).rowMax j ≠ 0 := fun h =>
      hnn (((Input.mk xs ys none 0 span).matHasNaN_iff j hk).mpr h)
    have hj' : (j : ℕ) < (Input.mk xs ys none 0 span).nObs := by
      have := j.isLt; omega
    have hd0 : (Input.mk xs ys none 0 span).dist j ⟨j, hj'⟩ = 0 := by
      rw [Input.dist, (Input.mk xs ys none 0 span).evalPt_none_eq rfl j hj',
        Input.sx, List.get_eq_getElem]
      simp
    have hdsel0 : (Input.mk xs ys none 0 span).dsel j ⟨0, hk⟩ = 0 :=
      le_antisymm
        (hd0 ▸ (Input.mk xs ys none 0 span).dsel_zero_le_dist j hk ⟨j, hj'⟩)
        ((Input.mk xs ys none 0 span).dsel_nonneg j _)
    have hw1 : (Input.mk xs ys none 0 span).weight j ⟨0, hk⟩ = FV.num 1 :=
      (Input.mk xs ys none 0 span).weight_eq_one_of_dsel_eq_zero j _ hrm hdsel0
    have hwq1 : (Input.mk xs ys none 0 span).wq j ⟨0, hk⟩ = 1 :=
      Input.wq_eq_of_weight_num _ hw1
    have hdet_sum : myDet ((Input.mk xs ys none 0 span).ratXtWX j)
        = ∑ i, (Input.mk xs ys none 0 span).wq j i := by
      rw [myDet_fin_one, Input.ratXtWX, Matrix.of_apply]
      refine Finset.sum_congr rfl fun i _ => ?_
      have hx : (Input.mk xs ys none 0 span).Xd j i 0 = 1 := by
        rw [Input.Xd]
        norm_num
      rw [hx, one_mul, mul_one]
    have hsum_pos : 0 < ∑ i, (Input.mk xs ys none 0 span).wq j i :=
      Finset.sum_pos' (fun i _ => (Input.mk xs ys none 0 span).wq_nonneg j i)
        ⟨⟨0, hk⟩, Finset.mem_univ _, by rw [hwq1]; norm_num⟩
    rw [hdet_sum] at hdet
    exact absurd hdet (ne_of_gt hsum_pos)
  exact (Input.mk xs ys none 0 span).loess_index_error rfl h1 h2 rfl

/-- C9 witness: a two-point call with degree 0 and absent `eval_x`
failing with the index error. -/
theorem C9_paired_degree_zero_index_error_witness :
    ([2, 1] : List ℚ).length = ([3, 4] : List ℚ).length
      ∧ (0:ℚ) < 3 / 4
      ∧ (Input.mk [2, 1] [3, 4] none 0 (3 / 4)).loess = .error .indexError :=
  ⟨rfl, by norm_num,
    C9_paired_degree_zero_index_error [2, 1] [3, 4] (3 / 4) rfl (by decide)
      (by norm_num)⟩

/-- C7 witness: the spec's concrete scenario restricted to the asserted
example point, x = 0..9, y = x, degree 1, span 0.75 (k = 8), evaluation
at 4.0; every hypothesis holds and the returned prediction is exactly 4. -/
theorem C7_linear_reproduction_witness :
    (∀ p ∈ (Input.mk [0, 1, 2, 3, 4, 5, 6, 7, 8, 9] [0, 1, 2, 3, 4, 5, 6, 7, 8, 9]
        (some [4]) 1 (3 / 4)).xs.zip
        (Input.mk [0, 1, 2, 3, 4, 5, 6, 7, 8, 9] [0, 1, 2, 3, 4, 5, 6, 7, 8, 9]
          (some [4]) 1 (3 / 4)).ys, p.2 = 1 * p.1 + 0)
      ∧ (Input.mk [0, 1, 2, 3, 4, 5, 6, 7, 8, 9] [0, 1, 2, 3, 4, 5, 6, 7, 8, 9]
          (some [4]) 1 (3 / 4)).loess = .ok (.values [FV.num 4])
      ∧ (∀ j, (Input.mk [0, 1, 2, 3, 4, 5, 6, 7, 8, 9] [0, 1, 2, 3, 4, 5, 6, 7, 8, 9]
            (some [4]) 1 (3 / 4)).yhat j
          = FV.num (1 * (Input.mk [0, 1, 2, 3, 4, 5, 6, 7, 8, 9]
              [0, 1, 2, 3, 4, 5, 6, 7, 8, 9] (some [4]) 1 (3 / 4)).evalPt j + 0)) :=
  ⟨by with_unfolding_all decide, by with_unfolding_all rfl,
    (C7_linear_reproduction _ 1 0 (by with_unfolding_all decide) (by decide)
      (by with_unfolding_all rfl) (by with_unfolding_all decide)).1⟩

/-- C10: when the neighbourhood size is 1, each row's single normalized
distance is 1 (weight exactly 0) when its distance is positive, and NaN
(weight NaN) when its distance is 0; consequently the call never
produces a finite prediction: it fails in the batched inversion with the
singular-matrix error, or fails with the degree-0 index error of the
paired output, or returns only NaN predictions. -/
theorem C10_k_one_no_finite_prediction (P : Input) (hk : P.kEff = 1)
    (hm : 1 ≤ P.numEval) :
    (∀ (j : Fin P.numEval) (i : Fin P.kEff),
        (0 < P.dsel j i → P.normed j i = FV.num 1 ∧ P.weight j i = FV.num 0)
          ∧ (P.dsel j i = 0 → P.normed j i = FV.nan ∧ P.weight j i = FV.nan))
      ∧ (P.loess = .error .singularMatrix ∨ P.loess = .error .indexError
          ∨ ∃ r, P.loess = .ok r ∧ PredsAllNaN r) := by
  have hdr : ∀ (j : Fin P.numEval) (i : Fin P.kEff), P.dsel j i = P.rowMax j := by
    intro j i
    obtain ⟨i2, hi2⟩ := P.exists_dsel_eq_rowMax j (by omega)
    have hii : i = i2 := Fin.ext (by
      have ha := i.isLt
      have hb := i2.isLt
      omega)
    rw [hii, hi2]
  constructor
  · intro j i
    constructor
    · intro hpos
      have hrm : P.rowMax j ≠ 0 := by rw [← hdr j i]; exact ne_of_gt hpos
      constructor
      · rw [Input.normed]
        show (if P.rowMax j = 0 then FV.nan
          else FV.num (P.dsel j i / P.rowMax j)) = FV.num 1
        rw [if_neg hrm, hdr j i, div_self hrm]
      · exact P.weight_eq_zero_of_dsel_eq_rowMax j i hrm (hdr j i)
    · intro hzero
      have hrm : P.rowMax j = 0 := by rw [← hdr j i, hzero]
      constructor
      · rw [Input.normed]
        show (if P.rowMax j = 0 then FV.nan
          else FV.num (P.dsel j i / P.rowMax j)) = FV.nan
        rw [if_pos hrm]
      · exact (P.weight_nan_iff j i).mpr hrm
  · have hgate : ¬(1 ≤ P.numEval ∧ P.kEff = 0) := by rintro ⟨-, h0⟩; omega
    by_cases hs : P.singularExists
    · exact Or.inl (P.loess_singular hgate hs)
    · have hall : ∀ j, P.matHasNaN j := by
        intro j
        by_contra hnn
        apply hs
        refine ⟨j, hnn, ?_⟩
        have hrm : P.rowMax j ≠ 0 := fun h =>
          hnn ((P.matHasNaN_iff j (by omega)).mpr h)
        have hw0 : ∀ i, P.wq j i = 0 := fun i =>
          Input.wq_eq_of_weight_num _
            (P.weight_eq_zero_of_dsel_eq_rowMax j i hrm (hdr j i))
        have hzero : P.ratXtWX j = 0 := by
          ext a b
          rw [Input.ratXtWX, Matrix.of_apply]
          have hsum : (∑ i, P.Xd j i a * P.wq j i * P.Xd j i b) = 0 :=
            Finset.sum_eq_zero fun i _ => by rw [hw0 i]; ring
          rw [hsum]
          rfl
        rw [hzero, myDet_eq_det, Matrix.det_zero ⟨0⟩]
      have hyh : ∀ j, P.yhat j = FV.nan := P.yhat_nan_of_all hall
      cases he : P.evalx with
      | some es =>
        refine Or.inr (Or.inr ⟨_, P.loess_values he hgate hs, ?_⟩)
        intro v hv
        rcases Set.mem_range.mp ((List.mem_ofFn _ _).mp hv) with ⟨j, hj⟩
        rw [← hj]
        exact hyh j
      | none =>
        by_cases hd : P.degree = 0
        · exact Or.inr (Or.inl (P.loess_index_error he hgate hs hd))
        · refine Or.inr (Or.inr ⟨_, P.loess_pairs he hgate hs hd, ?_⟩)
          intro p hp
          rcases Set.mem_range.mp ((List.mem_ofFn _ _).mp hp) with ⟨j, hj⟩
          rw [← hj]
          exact hyh j

/-- C10 witness: one observation, one evaluation point coinciding with
it, span 0.75 (k = 1); the distances are 0, the weights NaN, and the
call returns a single NaN prediction. -/
theorem C10_k_one_no_finite_prediction_witness :
    (Input.mk [5] [7] (some [5]) 2 (3 / 4)).kEff = 1
      ∧ ((∀ (j : Fin (Input.mk [5] [7] (some [5]) 2 (3 / 4)).numEval)
            (i : Fin (Input.mk [5] [7] (some [5]) 2 (3 / 4)).kEff),
          (0 < (Input.mk [5] [7] (some [5]) 2 (3 / 4)).dsel j i →
            (Input.mk [5] [7] (some [5]) 2 (3 / 4)).normed j i = FV.num 1
              ∧ (Input.mk [5] [7] (some [5]) 2 (3 / 4)).weight j i = FV.num 0)
            ∧ ((Input.mk [5] [7] (some [5]) 2 (3 / 4)).dsel j i = 0 →
              (Input.mk [5] [7] (some [5]) 2 (3 / 4)).normed j i = FV.nan
                ∧ (Input.mk [5] [7] (some [5]) 2 (3 / 4)).weight j i = FV.nan))
        ∧ ((Input.mk [5] [7] (some [5]) 2 (3 / 4)).loess = .error .singularMatrix
            ∨ (Input.mk [5] [7] (some [5]) 2 (3 / 4)).loess = .error .indexError
            ∨ ∃ r, (Input.mk [5] [7] (some [5]) 2 (3 / 4)).loess = .ok r
                ∧ PredsAllNaN r)) :=
  ⟨by with_unfolding_all decide,
    C10_k_one_no_finite_prediction _ (by with_unfolding_all decide)
      (by with_unfolding_all decide)⟩

end Pyloess
